import Mathlib

/-!
Shallow embedding of `src/power.py` (raspberry-pi-power-monitor).

The core pipeline of the program is:
  * `parse_pmic_output` — extracts named current/voltage readings from raw
    telemetry text using two regexes, after collapsing whitespace runs;
  * `calculate_power` — joins the current and voltage maps into a power map;
  * `calculate_metrics` — reduces a timestamped series of power maps into
    summary metrics.

Modelling conventions:
  * Python strings are `List Char`; component names are `List Char`.
  * Python floats are modelled as exact rationals `ℚ`; `float(str)` conversion
    (which can raise `ValueError`) is `pyFloat : List Char → Option ℚ`.
  * Python dicts are insertion-ordered association lists with last-write-wins
    update semantics (`dictInsert` updates in place or appends, exactly as a
    Python dict assignment does).
  * Code that can raise is embedded in `Except Unit` (or flagged in a result
    type); `Except.error ()` stands for a raised Python exception.
-/

namespace Power

/-- Python `\s` whitespace for the ASCII range (the characters relevant here). -/
def isPySpace (c : Char) : Bool :=
  c = ' ' || c = '\t' || c = '\n' || c = '\r' || c = '\x0b' || c = '\x0c'

/-- One pass of `re.sub(r"\s+", " ", out)`: the Bool records whether the
previous character belonged to a whitespace run already replaced by `' '`. -/
def collapseAux : Bool → List Char → List Char
  | _, [] => []
  | prevWs, c :: rest =>
    if isPySpace c then
      if prevWs then collapseAux true rest
      else ' ' :: collapseAux true rest
    else c :: collapseAux false rest

/-- `re.sub(r"\s+", " ", out)`: collapse every maximal run of whitespace into
a single space. -/
def collapseWs (l : List Char) : List Char :=
  collapseAux false l

/-- The character class `[A-Za-z0-9_]` of the name capture groups. -/
def isWordChar (c : Char) : Bool :=
  ('A' ≤ c && c ≤ 'Z') || ('a' ≤ c && c ≤ 'z') || ('0' ≤ c && c ≤ '9') || c = '_'

/-- The character class `[\d.]` of the value capture groups. -/
def isFloatChar (c : Char) : Bool :=
  c.isDigit || c = '.'

/-- Strip an expected literal from the front of the input, or fail. -/
def stripLit : List Char → List Char → Option (List Char)
  | [], l => some l
  | _ :: _, [] => none
  | p :: ps, c :: cs => if p = c then stripLit ps cs else none

/-- Attempt to match the regex
`([A-Za-z0-9_]+)_<tag> <mid-literal>(\d+)=([\d.]+)<unit>` at the head of `l`,
returning the two captures and the rest of the input after the match.

Both regexes of the source (`CURRENT_REGEX`, `VOLT_REGEX`) have this shape:
the name class contains `_`, `tag` and the digits, so a match anchored at a
position must consume a maximal word-character run that ends in `_tag`
(greedy `+` with backtracking stops there because the following literal
starts with a non-word character), and the greedy `[\d.]+` consumes a maximal
digit-or-dot run because the following unit letter is outside that class. -/
def matchTelemAt (tag : Char) (mid : List Char) (unit : Char) (l : List Char) :
    Option ((List Char × List Char) × List Char) :=
  let w := l.takeWhile isWordChar
  let r1 := l.dropWhile isWordChar
  if 3 ≤ w.length ∧ w.drop (w.length - 2) = ['_', tag] then
    match stripLit mid r1 with
    | none => none
    | some r2 =>
      let d := r2.takeWhile Char.isDigit
      let r3 := r2.dropWhile Char.isDigit
      if d.isEmpty then none else
      match stripLit [')', '='] r3 with
      | none => none
      | some r4 =>
        let f := r4.takeWhile isFloatChar
        let r5 := r4.dropWhile isFloatChar
        if f.isEmpty then none else
        match r5 with
        | [] => none
        | u :: r6 => if u = unit then some ((w.take (w.length - 2), f), r6) else none
  else none

/-- `re.findall` scan: try a match at each position from the left; on a match
emit its captures and continue after the match, otherwise advance one
character.  `fuel` bounds the recursion; each step consumes at least one
character of the input, so `fuel = l.length` never truncates the scan
(`scanAux_fuel` below). -/
def scanAux (tag : Char) (mid : List Char) (unit : Char) :
    Nat → List Char → List (List Char × List Char)
  | 0, _ => []
  | _ + 1, [] => []
  | fuel + 1, c :: rest =>
    match matchTelemAt tag mid unit (c :: rest) with
    | some (cap, r) => cap :: scanAux tag mid unit fuel r
    | none => scanAux tag mid unit fuel rest

/-- `regex.findall(l)` for one of the two telemetry regexes. -/
def findallTelem (tag : Char) (mid : List Char) (unit : Char) (l : List Char) :
    List (List Char × List Char) :=
  scanAux tag mid unit l.length l

/-- Numeric value of a digit string, most significant first. -/
def digitsVal (l : List Char) : ℚ :=
  l.foldl (fun acc c => acc * 10 + ((c.toNat - 48 : ℕ) : ℚ)) 0

/-- Python `float(value)` on a string drawn from the class `[\d.]+`:
succeeds iff the string has at most one dot and at least one digit
(`float(".")`, `float("1.2.3")` raise `ValueError`); the value is the exact
decimal. -/
def pyFloat (l : List Char) : Option ℚ :=
  let dots := l.count '.'
  if dots = 0 then
    if !l.isEmpty && l.all Char.isDigit then some (digitsVal l) else none
  else if dots = 1 then
    let ip := l.takeWhile (fun c => !(c = '.'))
    let fp := (l.dropWhile (fun c => !(c = '.'))).drop 1
    if (!ip.isEmpty || !fp.isEmpty) && ip.all Char.isDigit && fp.all Char.isDigit then
      some (digitsVal ip + digitsVal fp / (10 : ℚ) ^ fp.length)
    else none
  else none

/-- Component names are Python strings. -/
abbrev Name := List Char

/-- A Python dict, as its insertion-ordered entry list. -/
abbrev Dict := List (Name × ℚ)

/-- Python dict assignment `d[k] = v`: update in place if the key is present
(keeping its position), otherwise append. -/
def dictInsert : Dict → Name → ℚ → Dict
  | [], k, v => [(k, v)]
  | (k', v') :: rest, k, v =>
    if k' = k then (k, v) :: rest else (k', v') :: dictInsert rest k v

/-- Python dict lookup `d.get(k)` / `k in d` support. -/
def dictGet : Dict → Name → Option ℚ
  | [], _ => none
  | (k', v') :: rest, k => if k' = k then some v' else dictGet rest k

/-- The loop `for name, value in matches: d[name] = float(value)`, starting
from dict `d`; a failing `float` conversion raises out of the loop. -/
def buildDictAux (d : Dict) : List (Name × List Char) → Except Unit Dict
  | [] => .ok d
  | (n, v) :: rest =>
    match pyFloat v with
    | none => .error ()
    | some q => buildDictAux (dictInsert d n q) rest

def buildDict (caps : List (Name × List Char)) : Except Unit Dict :=
  buildDictAux [] caps

/-- Literal `" current("` of `CURRENT_REGEX`. -/
def midCurrent : List Char := [' ', 'c', 'u', 'r', 'r', 'e', 'n', 't', '(']

/-- Literal `" volt("` of `VOLT_REGEX`. -/
def midVolt : List Char := [' ', 'v', 'o', 'l', 't', '(']

/-- `CURRENT_REGEX.findall` on the whitespace-collapsed input. -/
def currentCaptures (output : List Char) : List (Name × List Char) :=
  findallTelem 'A' midCurrent 'A' (collapseWs output)

/-- `VOLT_REGEX.findall` on the whitespace-collapsed input. -/
def voltCaptures (output : List Char) : List (Name × List Char) :=
  findallTelem 'V' midVolt 'V' (collapseWs output)

/-- `parse_pmic_output(output)`: collapse whitespace, find all current and
voltage matches, build the two dicts (current dict first, as in the source);
a `float` conversion failure raises. -/
def parse_pmic_output (output : List Char) : Except Unit (Dict × Dict) := do
  let currents ← buildDict (currentCaptures output)
  let volts ← buildDict (voltCaptures output)
  return (currents, volts)

/-- `calculate_power(currents, volts)`: the dict comprehension
`{c: cur * volts[c] for c, cur in currents.items() if c in volts}`; the
guarded lookup `volts[c]` would raise on a missing key, which the embedding
records as `Except.error`. -/
def calculate_power (currents volts : Dict) : Except Unit Dict :=
  (currents.filter (fun p => (dictGet volts p.1).isSome)).mapM
    (fun p =>
      match dictGet volts p.1 with
      | some v => Except.ok (p.1, p.2 * v)
      | none => Except.error ())

/-- The power map `calculate_power` builds, written as a direct filter-map
(used to state that `calculate_power` never raises). -/
def powerSpec (currents volts : Dict) : Dict :=
  currents.filterMap (fun p => (dictGet volts p.1).map (fun v => (p.1, p.2 * v)))

/-- `sum(m.values())`. -/
def sumValues (m : Dict) : ℚ :=
  (m.map Prod.snd).sum

/-- Python `min(x₀ :: l)` over numbers: scan left keeping the current
minimum, replacing it only on a strictly smaller value. -/
def pyMin (x : ℚ) (l : List ℚ) : ℚ :=
  l.foldl (fun acc y => if y < acc then y else acc) x

/-- Python `max(x₀ :: l)` over numbers: scan left keeping the current
maximum, replacing it only on a strictly larger value. -/
def pyMax (x : ℚ) (l : List ℚ) : ℚ :=
  l.foldl (fun acc y => if acc < y then y else acc) x

/-- Python `list.index(x)`: index of the first occurrence (the source only
calls it on an element of the list). -/
def idxOf (x : ℚ) : List ℚ → Nat
  | [] => 0
  | a :: rest => if a = x then 0 else idxOf x rest + 1

/-- `sum(total_power[i] * (timestamps[i] - timestamps[i-1]) for i in
range(1, len(timestamps)))`. -/
def energyCalc (ts tp : List ℚ) : ℚ :=
  (((List.range ts.length).drop 1).map
    (fun i => tp.getD i 0 * (ts.getD i 0 - ts.getD (i - 1) 0))).sum

/-- Python `max(d, key=d.get)` after its first step: `bk, bv` are the current
best key and its value, and the remaining entries are scanned in iteration
order, the best being replaced only on a strictly larger value — so the first
maximal entry wins.  (For a dict, whose keys are distinct, `d.get k` at an
iterated key `k` is exactly that entry's value.) -/
def pyMaxByVal : Name → ℚ → Dict → Name
  | bk, _, [] => bk
  | bk, bv, (k, v) :: rest =>
    if bv < v then pyMaxByVal k v rest else pyMaxByVal bk bv rest

/-- The metrics dict returned by `calculate_metrics` on a non-empty series. -/
structure Metrics where
  min_power : ℚ
  max_power : ℚ
  avg_power : ℚ
  total_energy : ℚ
  peak_timestamp : ℚ
  most_consuming_component : Name
  component_power : Dict
  deriving DecidableEq

/-- Result of `calculate_metrics`: the empty dict `{}` on an empty series, a
metrics dict otherwise — unless evaluating `max(data[-1][1], ...)` on an
empty last map raises (`error`). -/
inductive MetricsResult
  | noData
  | metrics (m : Metrics)
  | error
  deriving DecidableEq

/-- `calculate_metrics(data)` for `data` a list of `(timestamp, power-dict)`
pairs. -/
def calculate_metrics (data : List (ℚ × Dict)) : MetricsResult :=
  match data with
  | [] => .noData
  | e :: rest =>
    match ((e :: rest).getLastD (0, [])).2 with
    | [] => .error
    | (k, v) :: ms =>
      .metrics
        { min_power := pyMin (sumValues e.2) (rest.map (fun p => sumValues p.2))
          max_power := pyMax (sumValues e.2) (rest.map (fun p => sumValues p.2))
          avg_power := (sumValues e.2 :: rest.map (fun p => sumValues p.2)).sum /
            (((sumValues e.2 :: rest.map (fun p => sumValues p.2)).length : ℚ))
          total_energy := energyCalc (e.1 :: rest.map Prod.fst)
            (sumValues e.2 :: rest.map (fun p => sumValues p.2))
          peak_timestamp :=
            (e.1 :: rest.map Prod.fst).getD
              (idxOf (pyMax (sumValues e.2) (rest.map (fun p => sumValues p.2)))
                (sumValues e.2 :: rest.map (fun p => sumValues p.2))) 0
          most_consuming_component := pyMaxByVal k v ms
          component_power := (k, v) :: ms }

/-- The spec's energy formula, written independently as a recursion over
consecutive readings: `Σ_{i=1..n-1} total_power[i] * (timestamp[i] -
timestamp[i-1])`. -/
def energySpec : List (ℚ × Dict) → ℚ
  | [] => 0
  | [_] => 0
  | a :: b :: rest => sumValues b.2 * (b.1 - a.1) + energySpec (b :: rest)

/-- A value token accepted by Python `float`: at most one dot, at least one
digit, and (as the regex guarantees) only digits and dots. -/
def goodFloat (v : List Char) : Prop :=
  v.count '.' ≤ 1 ∧ v.any Char.isDigit = true ∧
    v.all (fun c => c.isDigit || c = '.') = true

instance (v : List Char) : Decidable (goodFloat v) := by
  unfold goodFloat; infer_instance

/-! ### Dictionary lemmas -/

theorem dictGet_dictInsert (d : Dict) (k n : Name) (q : ℚ) :
    dictGet (dictInsert d k q) n = if k = n then some q else dictGet d n := by
  induction d with
  | nil => simp [dictInsert, dictGet]
  | cons p rest ih =>
    obtain ⟨k', v'⟩ := p
    by_cases hk : k' = k
    · subst hk
      by_cases hn : k' = n <;> simp [dictInsert, dictGet, hn]
    · by_cases hn : k' = n
      · subst hn
        have : ¬ k = k' := fun h => hk h.symm
        simp [dictInsert, dictGet, hk, this]
      · simp [dictInsert, dictGet, hk, hn, ih]

/-! ### Fold min/max lemmas -/

theorem pyMin_cons (x a : ℚ) (t : List ℚ) : pyMin x (a :: t) = pyMin (min x a) t := by
  unfold pyMin
  rw [List.foldl_cons]
  congr 1
  rcases lt_or_le a x with h | h
  · simp [h, min_eq_right h.le]
  · simp [not_lt.mpr h, min_eq_left h]

theorem pyMax_cons (x a : ℚ) (t : List ℚ) : pyMax x (a :: t) = pyMax (max x a) t := by
  unfold pyMax
  rw [List.foldl_cons]
  congr 1
  rcases lt_or_le x a with h | h
  · simp [h, max_eq_right h.le]
  · simp [not_lt.mpr h, max_eq_left h]

theorem pyMin_le (x : ℚ) (l : List ℚ) :
    pyMin x l ≤ x ∧ ∀ y ∈ l, pyMin x l ≤ y := by
  induction l generalizing x with
  | nil => simp [pyMin]
  | cons a t ih =>
    have h := ih (min x a)
    rw [pyMin_cons]
    refine ⟨le_trans h.1 (min_le_left x a), ?_⟩
    intro y hy
    rcases List.mem_cons.mp hy with hya | hyt
    · subst hya
      exact le_trans h.1 (min_le_right x y)
    · exact h.2 y hyt

theorem pyMin_mem (x : ℚ) (l : List ℚ) : pyMin x l = x ∨ pyMin x l ∈ l := by
  induction l generalizing x with
  | nil => simp [pyMin]
  | cons a t ih =>
    rw [pyMin_cons]
    rcases ih (min x a) with h | h
    · rcases min_choice x a with hx | ha
      · exact Or.inl (by rw [h, hx])
      · exact Or.inr (by rw [h, ha]; exact List.mem_cons_self a t)
    · exact Or.inr (List.mem_cons_of_mem a h)

theorem le_pyMax (x : ℚ) (l : List ℚ) :
    x ≤ pyMax x l ∧ ∀ y ∈ l, y ≤ pyMax x l := by
  induction l generalizing x with
  | nil => simp [pyMax]
  | cons a t ih =>
    have h := ih (max x a)
    rw [pyMax_cons]
    refine ⟨le_trans (le_max_left x a) h.1, ?_⟩
    intro y hy
    rcases List.mem_cons.mp hy with hya | hyt
    · subst hya
      exact le_trans (le_max_right x y) h.1
    · exact h.2 y hyt

theorem pyMax_mem (x : ℚ) (l : List ℚ) : pyMax x l = x ∨ pyMax x l ∈ l := by
  induction l generalizing x with
  | nil => simp [pyMax]
  | cons a t ih =>
    rw [pyMax_cons]
    rcases ih (max x a) with h | h
    · rcases max_choice x a with hx | ha
      · exact Or.inl (by rw [h, hx])
      · exact Or.inr (by rw [h, ha]; exact List.mem_cons_self a t)
    · exact Or.inr (List.mem_cons_of_mem a h)

theorem mul_length_le_sum (l : List ℚ) (m : ℚ) (h : ∀ y ∈ l, m ≤ y) :
    m * (l.length : ℚ) ≤ l.sum := by
  induction l with
  | nil => simp
  | cons a t ih =>
    have ha := h a (List.mem_cons_self a t)
    have ht := ih (fun y hy => h y (List.mem_cons_of_mem a hy))
    have hlen : (((a :: t).length : ℚ)) = (t.length : ℚ) + 1 := by
      push_cast [List.length_cons]; ring
    rw [List.sum_cons, hlen]
    nlinarith [ha, ht]

theorem sum_le_mul_length (l : List ℚ) (m : ℚ) (h : ∀ y ∈ l, y ≤ m) :
    l.sum ≤ m * (l.length : ℚ) := by
  induction l with
  | nil => simp
  | cons a t ih =>
    have ha := h a (List.mem_cons_self a t)
    have ht := ih (fun y hy => h y (List.mem_cons_of_mem a hy))
    have hlen : (((a :: t).length : ℚ)) = (t.length : ℚ) + 1 := by
      push_cast [List.length_cons]; ring
    rw [List.sum_cons, hlen]
    nlinarith [ha, ht]

/-! ### Inversion of `calculate_metrics` on a non-empty series -/

theorem calculate_metrics_inv {data : List (ℚ × Dict)} {m : Metrics}
    (h : calculate_metrics data = .metrics m) :
    ∃ e rest k v ms, data = e :: rest ∧
      ((e :: rest).getLastD (0, [])).2 = (k, v) :: ms ∧
      m = { min_power := pyMin (sumValues e.2) (rest.map (fun p => sumValues p.2))
            max_power := pyMax (sumValues e.2) (rest.map (fun p => sumValues p.2))
            avg_power := (sumValues e.2 :: rest.map (fun p => sumValues p.2)).sum /
              (((sumValues e.2 :: rest.map (fun p => sumValues p.2)).length : ℚ))
            total_energy := energyCalc (e.1 :: rest.map Prod.fst)
              (sumValues e.2 :: rest.map (fun p => sumValues p.2))
            peak_timestamp :=
              (e.1 :: rest.map Prod.fst).getD
                (idxOf (pyMax (sumValues e.2) (rest.map (fun p => sumValues p.2)))
                  (sumValues e.2 :: rest.map (fun p => sumValues p.2))) 0
            most_consuming_component := pyMaxByVal k v ms
            component_power := (k, v) :: ms } := by
  match data with
  | [] => simp [calculate_metrics] at h
  | e :: rest =>
    rcases hlast : ((e :: rest).getLastD (0, [])).2 with _ | ⟨⟨k, v⟩, ms⟩
    · unfold calculate_metrics at h
      dsimp only at h
      rw [hlast] at h
      exact absurd h (by simp)
    · unfold calculate_metrics at h
      dsimp only at h
      rw [hlast] at h
      dsimp only at h
      injection h with h'
      exact ⟨e, rest, k, v, ms, rfl, hlast, h'.symm⟩

/-! ### Claim C4 -/

/-- C4: on the empty series, `calculate_metrics` returns the explicit
empty-metrics marker (the empty dict `{}` of the source) and raises no error;
none of the averaging, min, max or energy computations is performed in that
branch. -/
theorem calculate_metrics_empty_series : calculate_metrics [] = .noData := rfl

/-! ### Claim C2 -/

/-- C2: for every non-empty series on which `calculate_metrics` returns a
metrics value, `min_power` and `max_power` are the minimum and maximum of the
per-reading total powers, `avg_power` is their mean, and
`min_power ≤ avg_power ≤ max_power`. -/
theorem metrics_min_avg_max (data : List (ℚ × Dict)) (m : Metrics)
    (h : calculate_metrics data = .metrics m) :
    (m.min_power ∈ data.map (fun p => sumValues p.2) ∧
      ∀ y ∈ data.map (fun p => sumValues p.2), m.min_power ≤ y) ∧
    (m.max_power ∈ data.map (fun p => sumValues p.2) ∧
      ∀ y ∈ data.map (fun p => sumValues p.2), y ≤ m.max_power) ∧
    m.avg_power = (data.map (fun p => sumValues p.2)).sum / ((data.length : ℚ)) ∧
    m.min_power ≤ m.avg_power ∧ m.avg_power ≤ m.max_power := by
  obtain ⟨e, rest, k, v, ms, hd, hlast, hm⟩ := calculate_metrics_inv h
  subst hd; subst hm
  simp only [List.map_cons]
  have hmin := pyMin_le (sumValues e.2) (rest.map (fun p => sumValues p.2))
  have hmax := le_pyMax (sumValues e.2) (rest.map (fun p => sumValues p.2))
  have hminmem : pyMin (sumValues e.2) (rest.map (fun p => sumValues p.2)) ∈
      sumValues e.2 :: rest.map (fun p => sumValues p.2) := by
    rcases pyMin_mem (sumValues e.2) (rest.map (fun p => sumValues p.2)) with h1 | h1
    · rw [h1]; exact List.mem_cons_self _ _
    · exact List.mem_cons_of_mem _ h1
  have hmaxmem : pyMax (sumValues e.2) (rest.map (fun p => sumValues p.2)) ∈
      sumValues e.2 :: rest.map (fun p => sumValues p.2) := by
    rcases pyMax_mem (sumValues e.2) (rest.map (fun p => sumValues p.2)) with h1 | h1
    · rw [h1]; exact List.mem_cons_self _ _
    · exact List.mem_cons_of_mem _ h1
  have hminle : ∀ y ∈ sumValues e.2 :: rest.map (fun p => sumValues p.2),
      pyMin (sumValues e.2) (rest.map (fun p => sumValues p.2)) ≤ y := by
    intro y hy
    rcases List.mem_cons.mp hy with hy | hy
    · exact hy ▸ hmin.1
    · exact hmin.2 y hy
  have hmaxle : ∀ y ∈ sumValues e.2 :: rest.map (fun p => sumValues p.2),
      y ≤ pyMax (sumValues e.2) (rest.map (fun p => sumValues p.2)) := by
    intro y hy
    rcases List.mem_cons.mp hy with hy | hy
    · exact hy ▸ hmax.1
    · exact hmax.2 y hy
  have hlen : ((sumValues e.2 :: rest.map (fun p => sumValues p.2)).length : ℚ) =
      (((e :: rest).length : ℕ) : ℚ) := by
    simp
  have hlenpos : (0 : ℚ) < ((sumValues e.2 :: rest.map (fun p => sumValues p.2)).length : ℚ) := by
    simp only [List.length_cons]
    positivity
  refine ⟨⟨hminmem, hminle⟩, ⟨hmaxmem, hmaxle⟩, by rw [hlen], ?_, ?_⟩
  · rw [le_div_iff₀ hlenpos]
    exact mul_length_le_sum _ _ hminle
  · rw [div_le_iff₀ hlenpos]
    exact sum_le_mul_length _ _ hmaxle

/-- Concrete example series from the spec's testable properties:
`[(0, {a: 1}), (1, {a: 3}), (2, {a: 2})]`. -/
def exSeries : List (ℚ × Dict) :=
  [(0, [(['a'], 1)]), (1, [(['a'], 3)]), (2, [(['a'], 2)])]

/-- The metrics `calculate_metrics` produces on `exSeries`. -/
def exMetrics : Metrics :=
  { min_power := 1, max_power := 3, avg_power := 2, total_energy := 5
    peak_timestamp := 1, most_consuming_component := ['a']
    component_power := [(['a'], 2)] }

theorem metrics_min_avg_max_witness :
    exMetrics.min_power ≤ exMetrics.avg_power ∧ exMetrics.avg_power ≤ exMetrics.max_power :=
  (metrics_min_avg_max exSeries exMetrics (by
    norm_num [calculate_metrics, exSeries, exMetrics, sumValues, pyMin, pyMax, energyCalc,
      idxOf, pyMaxByVal, List.getLastD, List.getD, List.range', List.getElem?_cons_succ,
      List.getElem?_cons_zero])).2.2.2

/-! ### Claim C3 -/

/-- C3: `calculate_power` never raises a missing-key failure: it returns
exactly the map that assigns `currents[c] * volts[c]` to every component `c`
present in both input maps and leaves out any component present in only one
of them. -/
theorem calculate_power_correct (currents volts : Dict) :
    calculate_power currents volts = Except.ok (powerSpec currents volts) ∧
    ∀ c, dictGet (powerSpec currents volts) c =
      match dictGet currents c, dictGet volts c with
      | some i, some v => some (i * v)
      | some _, none => none
      | none, _ => none := by
  constructor
  · induction currents with
    | nil => rfl
    | cons p rest ih =>
      cases hv : dictGet volts p.1 with
      | none =>
        have h1 : calculate_power (p :: rest) volts = calculate_power rest volts := by
          unfold calculate_power
          rw [List.filter_cons_of_neg (by simp [hv])]
        have h2 : powerSpec (p :: rest) volts = powerSpec rest volts := by
          simp [powerSpec, List.filterMap_cons, hv]
        rw [h1, h2, ih]
      | some v =>
        have h1 : calculate_power (p :: rest) volts =
            (do
              let x ← (match dictGet volts p.1 with
                | some v => Except.ok (p.1, p.2 * v)
                | none => Except.error ())
              let xs ← calculate_power rest volts
              return (x :: xs)) := by
          unfold calculate_power
          rw [List.filter_cons_of_pos (by simp [hv]), List.mapM_cons]
        rw [h1]
        simp only [hv]
        rw [ih]
        show Except.ok ((p.1, p.2 * v) :: powerSpec rest volts) =
          Except.ok (powerSpec (p :: rest) volts)
        simp [powerSpec, List.filterMap_cons, hv]
  · intro c
    induction currents with
    | nil =>
      cases hv : dictGet volts c <;> simp [powerSpec, dictGet]
    | cons p rest ih =>
      simp only [powerSpec] at ih ⊢
      by_cases hc : p.1 = c
      · subst hc
        cases hv : dictGet volts p.1 with
        | none =>
          cases hr : dictGet rest p.1 <;>
            simp_all [dictGet, List.filterMap_cons, hv]
        | some v => simp [dictGet, List.filterMap_cons, hv]
      · cases hv : dictGet volts p.1 with
        | none => simp [dictGet, List.filterMap_cons, hv, hc, ih]
        | some v => simp [dictGet, List.filterMap_cons, hv, hc, ih]

/-! ### Claim C10 -/

/-- C10: on any non-empty series whose last reading has an empty component
map, `calculate_metrics` raises (Python `max()` of an empty dict) instead of
returning a metrics value — the aggregator's totality stops at the
empty-series guard. -/
theorem calculate_metrics_empty_last_map (data : List (ℚ × Dict)) (h : data ≠ [])
    (h2 : (data.getLast h).2 = []) : calculate_metrics data = .error := by
  match data with
  | e :: rest =>
    have hlast : ((e :: rest).getLastD (0, [])).2 = [] := by
      rw [List.getLastD_eq_getLast?, List.getLast?_eq_getLast (e :: rest) (by simp)]
      simpa using h2
    unfold calculate_metrics
    dsimp only
    rw [hlast]

theorem calculate_metrics_empty_last_map_witness :
    calculate_metrics [((0 : ℚ), ([] : Dict))] = .error :=
  calculate_metrics_empty_last_map [((0 : ℚ), ([] : Dict))] (by simp) (by simp [List.getLast])

/-! ### Claim C5 -/

theorem energyCalc_cons2 (t0 t1 : ℚ) (ts : List ℚ) (p0 p1 : ℚ) (ps : List ℚ) :
    energyCalc (t0 :: t1 :: ts) (p0 :: p1 :: ps)
      = p1 * (t1 - t0) + energyCalc (t1 :: ts) (p1 :: ps) := by
  unfold energyCalc
  simp only [List.length_cons]
  rw [List.range_succ_eq_map, List.range_succ_eq_map]
  simp only [List.drop_succ_cons, List.drop_zero, List.map_cons, List.map_map, List.sum_cons]
  congr 1

theorem energy_eq_spec (e : ℚ × Dict) (rest : List (ℚ × Dict)) :
    energyCalc ((e :: rest).map Prod.fst) ((e :: rest).map (fun p => sumValues p.2))
      = energySpec (e :: rest) := by
  induction rest generalizing e with
  | nil => rfl
  | cons b rest ih =>
    simp only [List.map_cons]
    rw [energyCalc_cons2]
    have ihb := ih b
    simp only [List.map_cons] at ihb
    rw [ihb]
    rfl

/-- C5: for every non-empty series accepted by `calculate_metrics`, the
returned `total_energy` is the left-endpoint integration
`Σ_{i=1..n-1} total_power[i] * (timestamp[i] - timestamp[i-1])`; in
particular a single-reading series yields `total_energy = 0`. -/
theorem total_energy_left_endpoint (data : List (ℚ × Dict)) (m : Metrics)
    (h : calculate_metrics data = .metrics m) :
    m.total_energy = energySpec data ∧ (data.length = 1 → m.total_energy = 0) := by
  obtain ⟨e, rest, k, v, ms, hd, hlast, hm⟩ := calculate_metrics_inv h
  subst hd; subst hm
  constructor
  · have := energy_eq_spec e rest
    simpa [List.map_cons] using this
  · intro hlen
    have hrest : rest = [] := by
      simpa using hlen
    subst hrest
    rfl

theorem total_energy_left_endpoint_witness :
    exMetrics.total_energy = energySpec exSeries ∧
      (exSeries.length = 1 → exMetrics.total_energy = 0) :=
  total_energy_left_endpoint exSeries exMetrics (by
    norm_num [calculate_metrics, exSeries, exMetrics, sumValues, pyMin, pyMax, energyCalc,
      idxOf, pyMaxByVal, List.getLastD, List.getD, List.range', List.getElem?_cons_succ,
      List.getElem?_cons_zero])

/-! ### Claim C6 -/

theorem idxOf_spec (x : ℚ) (l : List ℚ) (hx : x ∈ l) :
    idxOf x l < l.length ∧ l.getD (idxOf x l) 0 = x ∧
      ∀ k < idxOf x l, l.getD k 0 ≠ x := by
  induction l with
  | nil => cases hx
  | cons a t ih =>
    by_cases ha : a = x
    · refine ⟨?_, ?_, ?_⟩ <;> simp [idxOf, ha]
    · have hx' : x ∈ t := by
        rcases List.mem_cons.mp hx with h | h
        · exact absurd h.symm ha
        · exact h
      obtain ⟨h1, h2, h3⟩ := ih hx'
      have hidx : idxOf x (a :: t) = idxOf x t + 1 := by simp [idxOf, ha]
      refine ⟨?_, ?_, ?_⟩
      · rw [hidx, List.length_cons]
        exact Nat.succ_lt_succ h1
      · rw [hidx, List.getD_cons_succ]
        exact h2
      · intro k hk
        rw [hidx] at hk
        cases k with
        | zero => simpa using ha
        | succ k' =>
          rw [List.getD_cons_succ]
          exact h3 k' (Nat.lt_of_succ_lt_succ hk)

/-- C6: for every non-empty series accepted by `calculate_metrics`, the
returned `peak_timestamp` is the timestamp of the first index at which the
per-reading total power reaches `max_power` (first-max tie-break). -/
theorem peak_timestamp_first_max (data : List (ℚ × Dict)) (m : Metrics)
    (h : calculate_metrics data = .metrics m) :
    ∃ j, j < data.length ∧
      (data.map (fun p => sumValues p.2)).getD j 0 = m.max_power ∧
      (∀ k < j, (data.map (fun p => sumValues p.2)).getD k 0 ≠ m.max_power) ∧
      m.peak_timestamp = (data.map Prod.fst).getD j 0 := by
  obtain ⟨e, rest, k, v, ms, hd, hlast, hm⟩ := calculate_metrics_inv h
  subst hd; subst hm
  simp only [List.map_cons]
  have hmem : pyMax (sumValues e.2) (rest.map (fun p => sumValues p.2)) ∈
      sumValues e.2 :: rest.map (fun p => sumValues p.2) := by
    rcases pyMax_mem (sumValues e.2) (rest.map (fun p => sumValues p.2)) with h1 | h1
    · rw [h1]; exact List.mem_cons_self _ _
    · exact List.mem_cons_of_mem _ h1
  obtain ⟨h1, h2, h3⟩ := idxOf_spec _ _ hmem
  refine ⟨idxOf (pyMax (sumValues e.2) (rest.map (fun p => sumValues p.2)))
    (sumValues e.2 :: rest.map (fun p => sumValues p.2)), ?_, h2, h3, rfl⟩
  simpa using h1

theorem peak_timestamp_first_max_witness :
    ∃ j, j < exSeries.length ∧
      (exSeries.map (fun p => sumValues p.2)).getD j 0 = exMetrics.max_power ∧
      (∀ k < j, (exSeries.map (fun p => sumValues p.2)).getD k 0 ≠ exMetrics.max_power) ∧
      exMetrics.peak_timestamp = (exSeries.map Prod.fst).getD j 0 :=
  peak_timestamp_first_max exSeries exMetrics (by
    norm_num [calculate_metrics, exSeries, exMetrics, sumValues, pyMin, pyMax, energyCalc,
      idxOf, pyMaxByVal, List.getLastD, List.getD, List.range', List.getElem?_cons_succ,
      List.getElem?_cons_zero])

/-! ### Claim C7 -/

theorem getD_mem_of_lt {α : Type} (l : List α) (n : Nat) (d : α) (h : n < l.length) :
    l.getD n d ∈ l := by
  induction l generalizing n with
  | nil => simp at h
  | cons a t ih =>
    cases n with
    | zero => simp
    | succ n' =>
      rw [List.getD_cons_succ]
      exact List.mem_cons_of_mem a (ih n' (Nat.lt_of_succ_lt_succ h))

/-- Invariant of the `max(..., key=...)` scan: starting from current best
`(bk, bv)`, the result is either the current best (when nothing in the rest
strictly beats `bv`) or the first entry of the rest strictly above `bv` that
no later entry strictly beats. -/
theorem pyMaxByVal_inv (d : Dict) (bk : Name) (bv : ℚ) :
    (pyMaxByVal bk bv d = bk ∧ ∀ p ∈ d, p.2 ≤ bv) ∨
    (∃ i, i < d.length ∧
      pyMaxByVal bk bv d = (d.getD i ([], 0)).1 ∧
      bv < (d.getD i ([], 0)).2 ∧
      (∀ j, j < d.length → (d.getD j ([], 0)).2 ≤ (d.getD i ([], 0)).2) ∧
      (∀ j, j < i → (d.getD j ([], 0)).2 < (d.getD i ([], 0)).2)) := by
  induction d generalizing bk bv with
  | nil => left; simp [pyMaxByVal]
  | cons q rest ih =>
    obtain ⟨k, v⟩ := q
    by_cases hlt : bv < v
    · have hred : pyMaxByVal bk bv ((k, v) :: rest) = pyMaxByVal k v rest := by
        simp [pyMaxByVal, hlt]
      rcases ih k v with ⟨hres, hall⟩ | ⟨i, hi, hres, hgt, hub, hstrict⟩
      · right
        refine ⟨0, by simp, by simp [hred, hres], by simpa using hlt, ?_, ?_⟩
        · intro j hj
          cases j with
          | zero => simp
          | succ j' =>
            simp only [List.getD_cons_succ, List.getD_cons_zero]
            exact hall _ (getD_mem_of_lt rest j' ([], 0)
              (Nat.lt_of_succ_lt_succ (by simpa using hj)))
        · intro j hj
          exact absurd hj (Nat.not_lt_zero j)
      · right
        refine ⟨i + 1, by simpa using Nat.succ_lt_succ hi,
          by simp [hred, hres, List.getD_cons_succ], ?_, ?_, ?_⟩
        · simp only [List.getD_cons_succ]
          exact lt_trans hlt hgt
        · intro j hj
          cases j with
          | zero =>
            simp only [List.getD_cons_zero, List.getD_cons_succ]
            exact le_of_lt hgt
          | succ j' =>
            simp only [List.getD_cons_succ]
            exact hub j' (Nat.lt_of_succ_lt_succ (by simpa using hj))
        · intro j hj
          cases j with
          | zero =>
            simp only [List.getD_cons_zero, List.getD_cons_succ]
            exact hgt
          | succ j' =>
            simp only [List.getD_cons_succ]
            exact hstrict j' (Nat.lt_of_succ_lt_succ hj)
    · have hred : pyMaxByVal bk bv ((k, v) :: rest) = pyMaxByVal bk bv rest := by
        simp [pyMaxByVal, hlt]
      have hvle : v ≤ bv := not_lt.mp hlt
      rcases ih bk bv with ⟨hres, hall⟩ | ⟨i, hi, hres, hgt, hub, hstrict⟩
      · left
        refine ⟨by simp [hred, hres], ?_⟩
        intro p hp
        rcases List.mem_cons.mp hp with hq | hp'
        · rw [hq]
          exact hvle
        · exact hall p hp'
      · right
        refine ⟨i + 1, by simpa using Nat.succ_lt_succ hi,
          by simp [hred, hres, List.getD_cons_succ], ?_, ?_, ?_⟩
        · simp only [List.getD_cons_succ]
          exact hgt
        · intro j hj
          cases j with
          | zero =>
            simp only [List.getD_cons_zero, List.getD_cons_succ]
            exact le_of_lt (lt_of_le_of_lt hvle hgt)
          | succ j' =>
            simp only [List.getD_cons_succ]
            exact hub j' (Nat.lt_of_succ_lt_succ (by simpa using hj))
        · intro j hj
          cases j with
          | zero =>
            simp only [List.getD_cons_zero, List.getD_cons_succ]
            exact lt_of_le_of_lt hvle hgt
          | succ j' =>
            simp only [List.getD_cons_succ]
            exact hstrict j' (Nat.lt_of_succ_lt_succ hj)

/-- C7: for every non-empty series accepted by `calculate_metrics`,
`most_consuming_component` is the name of the first entry (in the map's
insertion/iteration order) of the last reading's component map that attains
the largest power value. -/
theorem most_consuming_first_max (data : List (ℚ × Dict)) (m : Metrics)
    (h : calculate_metrics data = .metrics m) :
    m.component_power = (data.getLastD (0, [])).2 ∧
    ∃ i, i < m.component_power.length ∧
      m.most_consuming_component = (m.component_power.getD i ([], 0)).1 ∧
      (∀ j, j < m.component_power.length →
        (m.component_power.getD j ([], 0)).2 ≤ (m.component_power.getD i ([], 0)).2) ∧
      (∀ j, j < i →
        (m.component_power.getD j ([], 0)).2 < (m.component_power.getD i ([], 0)).2) := by
  obtain ⟨e, rest, k, v, ms, hd, hlast, hm⟩ := calculate_metrics_inv h
  subst hd; subst hm
  refine ⟨hlast.symm, ?_⟩
  rcases pyMaxByVal_inv ms k v with ⟨hres, hall⟩ | ⟨i, hi, hres, hgt, hub, hstrict⟩
  · refine ⟨0, by simp, by simp [hres], ?_, ?_⟩
    · intro j hj
      cases j with
      | zero => simp
      | succ j' =>
        simp only [List.getD_cons_succ, List.getD_cons_zero]
        exact hall _ (getD_mem_of_lt ms j' ([], 0)
          (Nat.lt_of_succ_lt_succ (by simpa using hj)))
    · intro j hj
      exact absurd hj (Nat.not_lt_zero j)
  · refine ⟨i + 1, by simpa using Nat.succ_lt_succ hi,
      by simp [hres, List.getD_cons_succ], ?_, ?_⟩
    · intro j hj
      cases j with
      | zero =>
        simp only [List.getD_cons_zero, List.getD_cons_succ]
        exact le_of_lt hgt
      | succ j' =>
        simp only [List.getD_cons_succ]
        exact hub j' (Nat.lt_of_succ_lt_succ (by simpa using hj))
    · intro j hj
      cases j with
      | zero =>
        simp only [List.getD_cons_zero, List.getD_cons_succ]
        exact hgt
      | succ j' =>
        simp only [List.getD_cons_succ]
        exact hstrict j' (Nat.lt_of_succ_lt_succ hj)

theorem most_consuming_first_max_witness :
    exMetrics.component_power = (exSeries.getLastD (0, [])).2 ∧
    ∃ i, i < exMetrics.component_power.length ∧
      exMetrics.most_consuming_component = (exMetrics.component_power.getD i ([], 0)).1 ∧
      (∀ j, j < exMetrics.component_power.length →
        (exMetrics.component_power.getD j ([], 0)).2 ≤
          (exMetrics.component_power.getD i ([], 0)).2) ∧
      (∀ j, j < i →
        (exMetrics.component_power.getD j ([], 0)).2 <
          (exMetrics.component_power.getD i ([], 0)).2) :=
  most_consuming_first_max exSeries exMetrics (by
    norm_num [calculate_metrics, exSeries, exMetrics, sumValues, pyMin, pyMax, energyCalc,
      idxOf, pyMaxByVal, List.getLastD, List.getD, List.range', List.getElem?_cons_succ,
      List.getElem?_cons_zero])

/-! ### Claim C9 -/

/-- A whitespace-normal form: every whitespace character is `' '` and no two
whitespace characters are adjacent. -/
def wsClean : List Char → Bool
  | [] => true
  | [c] => !(isPySpace c) || c = ' '
  | c :: d :: rest => (!(isPySpace c) || (c = ' ' && !(isPySpace d))) && wsClean (d :: rest)

theorem collapseAux_true_head (l : List Char) (c : Char) (cs : List Char)
    (h : collapseAux true l = c :: cs) : isPySpace c = false := by
  induction l generalizing c cs with
  | nil => simp [collapseAux] at h
  | cons a rest ih =>
    by_cases ha : isPySpace a
    · rw [show collapseAux true (a :: rest) = collapseAux true rest by
        simp [collapseAux, ha]] at h
      exact ih c cs h
    · rw [show collapseAux true (a :: rest) = a :: collapseAux false rest by
        simp [collapseAux, ha]] at h
      obtain ⟨rfl, -⟩ := List.cons.injEq a (collapseAux false rest) c cs ▸ h
      exact eq_false_of_ne_true ha

theorem wsClean_cons_of_not_ws (c : Char) (rest : List Char)
    (hc : isPySpace c = false) (h : wsClean rest = true) : wsClean (c :: rest) = true := by
  cases rest with
  | nil => simp [wsClean, hc]
  | cons d ds => simp [wsClean, hc, h]

theorem wsClean_space_cons (rest : List Char)
    (hhead : ∀ c cs, rest = c :: cs → isPySpace c = false)
    (h : wsClean rest = true) : wsClean (' ' :: rest) = true := by
  cases rest with
  | nil => simp [wsClean]
  | cons d ds => simp [wsClean, hhead d ds rfl, h]

theorem wsClean_collapseAux (l : List Char) : ∀ b, wsClean (collapseAux b l) = true := by
  induction l with
  | nil => intro b; simp [collapseAux, wsClean]
  | cons c rest ih =>
    intro b
    by_cases hc : isPySpace c
    · cases b with
      | true =>
        rw [show collapseAux true (c :: rest) = collapseAux true rest by
          simp [collapseAux, hc]]
        exact ih true
      | false =>
        rw [show collapseAux false (c :: rest) = ' ' :: collapseAux true rest by
          simp [collapseAux, hc]]
        exact wsClean_space_cons _ (collapseAux_true_head rest) (ih true)
    · rw [show collapseAux b (c :: rest) = c :: collapseAux false rest by
        simp [collapseAux, hc]]
      exact wsClean_cons_of_not_ws c _ (eq_false_of_ne_true hc) (ih false)

theorem collapseAux_of_wsClean (l : List Char) (h : wsClean l = true) :
    collapseAux false l = l ∧
      ((∀ c cs, l = c :: cs → isPySpace c = false) → collapseAux true l = l) := by
  induction l with
  | nil => exact ⟨rfl, fun _ => rfl⟩
  | cons c rest ih =>
    by_cases hc : isPySpace c
    · have hcs : c = ' ' ∧ (∀ d ds, rest = d :: ds → isPySpace d = false) ∧
          wsClean rest = true := by
        cases rest with
        | nil =>
          simp only [wsClean, hc, Bool.not_true, Bool.false_or, decide_eq_true_eq] at h
          exact ⟨h, fun d ds hds => by simp at hds, rfl⟩
        | cons d ds =>
          simp only [wsClean, hc, Bool.not_true, Bool.false_or, Bool.and_eq_true,
            decide_eq_true_eq] at h
          refine ⟨h.1.1, ?_, h.2⟩
          intro d' ds' hd
          obtain ⟨rfl, -⟩ := List.cons.injEq d ds d' ds' ▸ hd
          simpa using h.1.2
      obtain ⟨rfl, hhead, hcl⟩ := hcs
      constructor
      · rw [show collapseAux false (' ' :: rest) = ' ' :: collapseAux true rest by
          simp [collapseAux, isPySpace]]
        rw [(ih hcl).2 hhead]
      · intro hlead
        exact absurd (hlead ' ' rest rfl) (by simp [isPySpace])
    · have hcl : wsClean rest = true := by
        cases rest with
        | nil => rfl
        | cons d ds =>
          simp only [wsClean, Bool.and_eq_true] at h
          exact h.2
      have hstep : ∀ b, collapseAux b (c :: rest) = c :: collapseAux false rest := by
        intro b; simp [collapseAux, hc]
      constructor
      · rw [hstep false, (ih hcl).1]
      · intro _
        rw [hstep true, (ih hcl).1]

theorem collapseWs_idem (l : List Char) : collapseWs (collapseWs l) = collapseWs l :=
  (collapseAux_of_wsClean (collapseAux false l) (wsClean_collapseAux l false)).1

/-- C9: parsing is invariant under collapsing every whitespace run of the
input into a single space — multi-line and single-line telemetry dumps are
equivalent inputs. -/
theorem parse_ws_normalization (s : List Char) :
    parse_pmic_output (collapseWs s) = parse_pmic_output s := by
  unfold parse_pmic_output currentCaptures voltCaptures
  rw [collapseWs_idem]

/-! ### Claim C8 -/

theorem getLast?_cons_some {α : Type} (x : α) (xs : List α) :
    ∃ p, (x :: xs).getLast? = some p := by
  induction xs generalizing x with
  | nil => exact ⟨x, rfl⟩
  | cons y ys ih =>
    rw [List.getLast?_cons_cons]
    exact ih y

theorem buildDictAux_lookup (caps : List (Name × List Char)) (d d' : Dict) (n : Name)
    (h : buildDictAux d caps = .ok d') :
    dictGet d' n =
      match (caps.filter (fun p => decide (p.1 = n))).getLast? with
      | some p => pyFloat p.2
      | none => dictGet d n := by
  induction caps generalizing d with
  | nil =>
    simp only [buildDictAux, Except.ok.injEq] at h
    subst h
    simp
  | cons q rest ih =>
    obtain ⟨nm, val⟩ := q
    cases hq : pyFloat val with
    | none =>
      rw [show buildDictAux d ((nm, val) :: rest) =
        match pyFloat val with
        | none => Except.error ()
        | some q => buildDictAux (dictInsert d nm q) rest from rfl, hq] at h
      exact absurd h (by simp)
    | some q' =>
      rw [show buildDictAux d ((nm, val) :: rest) =
        match pyFloat val with
        | none => Except.error ()
        | some q => buildDictAux (dictInsert d nm q) rest from rfl, hq] at h
      have hrec := ih (dictInsert d nm q') h
      rw [hrec]
      by_cases hn : nm = n
      · subst hn
        cases hr : (rest.filter (fun p => decide (p.1 = nm))) with
        | nil => simp [List.filter_cons, hr, dictGet_dictInsert, hq]
        | cons x xs =>
          obtain ⟨p, hp⟩ := getLast?_cons_some x xs
          simp [List.filter_cons, hr, List.getLast?_cons_cons, hp]
      · simp [List.filter_cons, hn, dictGet_dictInsert]

/-- C8: when the input contains several occurrences of the same component
name, the parsed map holds the value of the last occurrence: both dicts are
built by sequential overwrite of the findall capture list. -/
theorem parse_last_occurrence_wins (s : List Char) (c v : Dict) (n : Name)
    (h : parse_pmic_output s = .ok (c, v)) :
    dictGet c n =
      (match ((currentCaptures s).filter (fun p => decide (p.1 = n))).getLast? with
       | some p => pyFloat p.2
       | none => none) ∧
    dictGet v n =
      (match ((voltCaptures s).filter (fun p => decide (p.1 = n))).getLast? with
       | some p => pyFloat p.2
       | none => none) := by
  unfold parse_pmic_output at h
  cases hc : buildDict (currentCaptures s) with
  | error e =>
    rw [hc] at h
    exact absurd h (by simp [Bind.bind, Except.bind])
  | ok cd =>
    cases hv : buildDict (voltCaptures s) with
    | error e =>
      rw [hc, hv] at h
      exact absurd h (by simp [Bind.bind, Except.bind])
    | ok vd =>
      rw [hc, hv] at h
      have hpair : cd = c ∧ vd = v := by
        simpa [Bind.bind, Except.bind, pure, Except.pure] using h
      obtain ⟨rfl, rfl⟩ := hpair
      constructor
      · have := buildDictAux_lookup (currentCaptures s) [] cd n hc
        simpa [dictGet] using this
      · have := buildDictAux_lookup (voltCaptures s) [] vd n hv
        simpa [dictGet] using this

/-- Input with a duplicated current name: `a` is reported twice, the later
occurrence carrying `2.5`. -/
def dupInput : List Char := "a_A current(0)=1A a_A current(0)=2.5A".toList

set_option maxHeartbeats 2000000 in
theorem parse_last_occurrence_wins_witness :
    dictGet [(['a'], 5 / 2)] ['a'] =
      (match ((currentCaptures dupInput).filter
          (fun p => decide (p.1 = ['a']))).getLast? with
       | some p => pyFloat p.2
       | none => none) ∧
    dictGet [] ['a'] =
      (match ((voltCaptures dupInput).filter
          (fun p => decide (p.1 = ['a']))).getLast? with
       | some p => pyFloat p.2
       | none => none) :=
  parse_last_occurrence_wins dupInput [(['a'], 5 / 2)] [] ['a'] (by
    simp only [parse_pmic_output, currentCaptures, voltCaptures, dupInput]
    simp [findallTelem, scanAux, matchTelemAt, stripLit, collapseWs, collapseAux,
      isPySpace, isWordChar, isFloatChar, List.takeWhile, List.dropWhile, buildDict,
      buildDictAux, pyFloat, digitsVal, dictInsert, List.count, List.countP, List.countP.go]
    norm_num
    rfl)

/-! ### Claim C1 -/

set_option maxHeartbeats 2000000 in
/-- C1 fails as stated: on this input the current regex captures the value
token `"."`, and Python `float(".")` raises `ValueError`, so
`parse_pmic_output` raises instead of returning maps. -/
theorem parse_raises_on_bad_float :
    parse_pmic_output ("foo_A current(0)=.A".toList) = .error () := by
  simp only [parse_pmic_output, currentCaptures, voltCaptures]
  simp [findallTelem, scanAux, matchTelemAt, stripLit, collapseWs, collapseAux,
    isPySpace, isWordChar, isFloatChar, List.takeWhile, List.dropWhile, buildDict,
    buildDictAux, pyFloat, digitsVal, dictInsert, List.count, List.countP, List.countP.go]
  rfl

theorem splitDot (l : List Char) (h : l.count '.' = 1) :
    ∃ ip fp, l = ip ++ '.' :: fp ∧ '.' ∉ ip ∧ '.' ∉ fp ∧
      l.takeWhile (fun c => !(c = '.')) = ip ∧
      (l.dropWhile (fun c => !(c = '.'))).drop 1 = fp := by
  induction l with
  | nil => simp at h
  | cons c rest ih =>
    by_cases hc : c = '.'
    · subst hc
      have hz : rest.count '.' = 0 := by
        rw [List.count_cons_self] at h
        omega
      refine ⟨[], rest, rfl, by simp, List.count_eq_zero.mp hz, ?_, ?_⟩
      · simp [List.takeWhile]
      · simp [List.dropWhile]
    · have hcount : rest.count '.' = 1 := by
        rw [List.count_cons_of_ne (fun hcc => hc hcc.symm)] at h
        exact h
      obtain ⟨ip, fp, hsplit, hipd, hfpd, hip, hfp⟩ := ih hcount
      refine ⟨c :: ip, fp, by rw [hsplit]; rfl, ?_, hfpd, ?_, ?_⟩
      · intro hmem
        rcases List.mem_cons.mp hmem with hd | hd
        · exact hc hd.symm
        · exact hipd hd
      · rw [List.takeWhile_cons_of_pos (by simpa using hc), hip]
      · rw [List.dropWhile_cons_of_pos (by simpa using hc), hfp]

theorem digit_ne_dot {c : Char} (hd : c.isDigit = true) : c ≠ '.' := by
  intro hc
  subst hc
  simp [Char.isDigit] at hd

theorem pyFloat_isSome_of_good (v : List Char) (hg : goodFloat v) :
    (pyFloat v).isSome = true := by
  obtain ⟨hdots, hany, hall⟩ := hg
  have hall' : ∀ c ∈ v, c.isDigit = true ∨ c = '.' := by
    intro c hc
    have := List.all_eq_true.mp hall c hc
    simpa using this
  obtain ⟨cdig, hcdig, hdig⟩ := List.any_eq_true.mp hany
  rcases Nat.lt_or_ge (v.count '.') 1 with h0 | h1'
  · have h0' : v.count '.' = 0 := by omega
    have hnodot : '.' ∉ v := List.count_eq_zero.mp h0'
    have hne : v ≠ [] := by
      intro hv
      rw [hv] at hcdig
      cases hcdig
    have halldig : v.all Char.isDigit = true := by
      rw [List.all_eq_true]
      intro c hc
      rcases hall' c hc with hd | hd
      · simpa using hd
      · exact absurd (hd ▸ hc) hnodot
    unfold pyFloat
    simp [h0', hne, halldig]
  · have h1 : v.count '.' = 1 := le_antisymm hdots h1'
    obtain ⟨ip, fp, hsplit, hipd, hfpd, hip, hfp⟩ := splitDot v h1
    have hipdig : ip.all Char.isDigit = true := by
      rw [List.all_eq_true]
      intro c hc
      rcases hall' c (hsplit ▸ List.mem_append_left _ hc) with hd | hd
      · simpa using hd
      · exact absurd (hd ▸ hc) hipd
    have hfpdig : fp.all Char.isDigit = true := by
      rw [List.all_eq_true]
      intro c hc
      rcases hall' c (hsplit ▸ List.mem_append_right _ (List.mem_cons_of_mem _ hc)) with hd | hd
      · simpa using hd
      · exact absurd (hd ▸ hc) hfpd
    have hnonempty : (!ip.isEmpty || !fp.isEmpty) = true := by
      have hcd : cdig ∈ ip ∨ cdig ∈ fp := by
        rw [hsplit] at hcdig
        rcases List.mem_append.mp hcdig with hd | hd
        · exact Or.inl hd
        · rcases List.mem_cons.mp hd with hd' | hd'
          · exact absurd hd' (digit_ne_dot (by simpa using hdig))
          · exact Or.inr hd'
      rcases hcd with hd | hd
      · have : ip ≠ [] := fun hip0 => by rw [hip0] at hd; cases hd
        simp [List.isEmpty_iff, this]
      · have : fp ≠ [] := fun hfp0 => by rw [hfp0] at hd; cases hd
        simp [List.isEmpty_iff, this]
    have h1ne : v.count '.' ≠ 0 := by omega
    unfold pyFloat
    simp only [h1, hip, hfp, if_false, if_true, hnonempty, hipdig, hfpdig]
    simp

theorem buildDictAux_ok (caps : List (Name × List Char))
    (hg : ∀ p ∈ caps, goodFloat p.2) :
    ∀ d, ∃ d', buildDictAux d caps = .ok d' := by
  induction caps with
  | nil => intro d; exact ⟨d, rfl⟩
  | cons q rest ih =>
    intro d
    obtain ⟨nm, val⟩ := q
    have hq := pyFloat_isSome_of_good val (hg (nm, val) (List.mem_cons_self _ _))
    obtain ⟨qv, hqv⟩ := Option.isSome_iff_exists.mp hq
    obtain ⟨d', hd'⟩ := ih (fun p hp => hg p (List.mem_cons_of_mem _ hp)) (dictInsert d nm qv)
    refine ⟨d', ?_⟩
    rw [show buildDictAux d ((nm, val) :: rest) =
      match pyFloat val with
      | none => Except.error ()
      | some q => buildDictAux (dictInsert d nm q) rest from rfl, hqv]
    exact hd'

/-- C1 (amended): `parse_pmic_output` returns a pair of maps and raises no
error on every input whose captured value tokens are all convertible by
Python `float` — i.e. contain at least one digit and at most one dot.  (As
stated the claim is false: a captured token such as `"."` makes `float`
raise, see `parse_raises_on_bad_float`.) -/
theorem parse_total_on_convertible (s : List Char)
    (h : ∀ p ∈ currentCaptures s ++ voltCaptures s, goodFloat p.2) :
    ∃ cv, parse_pmic_output s = .ok cv := by
  obtain ⟨cd, hc⟩ := buildDictAux_ok (currentCaptures s)
    (fun p hp => h p (List.mem_append_left _ hp)) []
  obtain ⟨vd, hv⟩ := buildDictAux_ok (voltCaptures s)
    (fun p hp => h p (List.mem_append_right _ hp)) []
  refine ⟨(cd, vd), ?_⟩
  unfold parse_pmic_output buildDict
  rw [hc, hv]
  rfl

/-- A well-formed telemetry line: all captured tokens are valid floats. -/
def goodInput : List Char := "foo_A current(0)=1.5A foo_V volt(0)=2.0V".toList

theorem parse_total_on_convertible_witness :
    ∃ cv, parse_pmic_output goodInput = .ok cv :=
  parse_total_on_convertible goodInput (by decide)

end Power
